import Mathlib

/-!
Verification of the remote log-tailing core (`cook/subcommands/tail.py`).

The file content is modelled as a `List Char`; the Mesos `files/read`
endpoint is modelled by extracting the requested byte range from that list
(`List.take length (List.drop offset file)`).  The `while True` loops of
`tail_backwards` and `tail_follow` are modelled with an explicit fuel
argument (structural recursion), together with a theorem showing that
enough fuel always exists, so the fuel never changes the observable result.

The chunk size is a fixed constant (4096) in the source; the definitions
take it as an explicit argument `W` so that properties quantified over the
window size can be stated, and the constant-instantiated versions
(`tail_backwards`, `tailWindows`, `tailOutput`) fix `W = CHUNK_SIZE`.
-/

namespace CookTail

/-- `CHUNK_SIZE = 4096` from the source. -/
def CHUNK_SIZE : Nat := 4096

/-- `LINE_DELIMITER = '\n'` from the source. -/
def LINE_DELIMITER : Char := '\n'

/-- Helper for Python `str.split`: returns the first piece and the list of
remaining pieces (Python `split` always returns at least one piece). -/
def splitAux (d : Char) : List Char → List Char × List (List Char)
  | [] => ([], [])
  | c :: rest =>
    if c = d then ([], (splitAux d rest).1 :: (splitAux d rest).2)
    else (c :: (splitAux d rest).1, (splitAux d rest).2)

/-- Python `s.split(d)` for a single-character separator `d`:
splits at every occurrence of `d`; `"".split(d) = [""]`. -/
def splitOnChar (d : Char) (s : List Char) : List (List Char) :=
  (splitAux d s).1 :: (splitAux d s).2

/-- Python `d.join(pieces)`. -/
def joinWith (d : Char) : List (List Char) → List Char
  | [] => []
  | [x] => x
  | x :: y :: ys => x ++ d :: joinWith d (y :: ys)

/-- Python slice `l[-k:]` for `k ≥ 0` (note `l[-0:]` is all of `l`). -/
def sliceLast (l : List (List Char)) (k : Nat) : List (List Char) :=
  if k = 0 then l else List.drop (l.length - k) l

/-- `check_enough_lines_read` from the source: if enough lines have been
read to satisfy the request, returns the text that is printed (the
trailing lines joined by the delimiter, with no trailing delimiter);
otherwise returns `none`. -/
def check_enough_lines_read (line_buffer : List (List Char))
    (num_lines_to_print : Nat) : Option (List Char) :=
  if 0 < line_buffer.length then
    -- If the last line is empty, don't count it as a line that we care about
    let last_line_empty : Bool := line_buffer.getLast? == some []
    let num_lines_printable := line_buffer.length - (if last_line_empty then 1 else 0)
    if num_lines_to_print ≤ num_lines_printable then
      let k := if last_line_empty then num_lines_to_print + 1 else num_lines_to_print
      some (joinWith LINE_DELIMITER (sliceLast line_buffer k))
    else none
  else none

/-- `check_start_of_file` from the source: if the offset is `0`, returns
the text printed (the pb buffer, then, if the line buffer is non-empty, a
delimiter followed by the buffered lines joined by the delimiter). -/
def check_start_of_file (offset : Nat) (pbuf : List Char)
    (line_buffer : List (List Char)) : Option (List Char) :=
  if offset = 0 then
    some (pbuf ++
      if 0 < line_buffer.length then
        LINE_DELIMITER :: joinWith LINE_DELIMITER line_buffer
      else [])
  else none

/-- The loop state of `tail_backwards`: the next window to read
(`offset`, `length`), the unconfirmed leftmost fragment `pb`
(`partial_line_buffer` in the source), and the confirmed complete lines
`lb` (`line_buffer` in the source, in file order). -/
structure TailState where
  offset : Nat
  length : Nat
  pb : List Char
  lb : List (List Char)
deriving DecidableEq

/-- The buffer update performed at the top of each `tail_backwards`
iteration: prepend the freshly read data, split on the delimiter, and if
more than one piece was produced, keep the first piece as the new pb
buffer and push the remaining pieces onto the front of the line buffer. -/
def updateBuffers (pb : List Char) (lb : List (List Char)) (data : List Char) :
    List Char × List (List Char) :=
  let buf := data ++ pb
  let lines := splitOnChar LINE_DELIMITER buf
  if 1 < lines.length then
    (List.take (lines.headD []).length buf, lines.tail ++ lb)
  else (buf, lb)

/-- One iteration of the `tail_backwards` loop with window size `W`,
reading directly from the in-memory file: either the loop stops and
returns the printed text (`Sum.inl`), or it continues with the updated
state (`Sum.inr`). -/
def tailIter (W : Nat) (file : List Char) (n : Nat) (s : TailState) :
    Sum (List Char) TailState :=
  match check_enough_lines_read
      (updateBuffers s.pb s.lb (List.take s.length (List.drop s.offset file))).2 n with
  | some out => Sum.inl out
  | none =>
    match check_start_of_file s.offset
        (updateBuffers s.pb s.lb (List.take s.length (List.drop s.offset file))).1
        (updateBuffers s.pb s.lb (List.take s.length (List.drop s.offset file))).2 with
    | some out => Sum.inl out
    | none =>
      Sum.inr ⟨s.offset - W, s.offset - (s.offset - W),
        (updateBuffers s.pb s.lb (List.take s.length (List.drop s.offset file))).1,
        (updateBuffers s.pb s.lb (List.take s.length (List.drop s.offset file))).2⟩

/-- The `tail_backwards` loop with window size `W` and explicit fuel.
Returns the list of read windows (in the order they were requested) and
the printed output, or `none` if the fuel ran out (which never happens
when `0 < W`, see the termination theorem). -/
def tailLoop (W : Nat) (file : List Char) (n : Nat) :
    Nat → TailState → Option (List (Nat × Nat) × List Char)
  | 0, _ => none
  | fuel + 1, s =>
    match tailIter W file n s with
    | Sum.inl out => some ([(s.offset, s.length)], out)
    | Sum.inr s2 =>
      Option.map (fun r => ((s.offset, s.length) :: r.1, r.2))
        (tailLoop W file n fuel s2)

/-- The initial state of `tail_backwards`:
`offset = max(file_size - W, 0)`, `length = file_size - offset`,
empty buffers. -/
def initState (W : Nat) (file : List Char) : TailState :=
  ⟨List.length file - W, List.length file - (List.length file - W), [], []⟩

/-- `tail_backwards` with explicit window size `W`, with fuel
`file_size + 1` (always sufficient when `0 < W`). -/
def tail_backwardsW (W : Nat) (file : List Char) (n : Nat) :
    Option (List (Nat × Nat) × List Char) :=
  tailLoop W file n (List.length file + 1) (initState W file)

/-- `tail_backwards` from the source (window size `CHUNK_SIZE`). -/
def tail_backwards (file : List Char) (n : Nat) :
    Option (List (Nat × Nat) × List Char) :=
  tail_backwardsW CHUNK_SIZE file n

/-- The byte windows requested by `tail_backwards` with window size `W`. -/
def tailWindowsW (W : Nat) (file : List Char) (n : Nat) : List (Nat × Nat) :=
  (Option.map Prod.fst (tail_backwardsW W file n)).getD []

/-- The byte windows requested by `tail_backwards`. -/
def tailWindows (file : List Char) (n : Nat) : List (Nat × Nat) :=
  tailWindowsW CHUNK_SIZE file n

/-- The text printed by `tail_backwards`. -/
def tailOutput (file : List Char) (n : Nat) : List Char :=
  (Option.map Prod.snd (tail_backwards file n)).getD []

/-- The delimiter-prefixed join used when the line buffer follows the pb
buffer: empty for an empty buffer, otherwise a delimiter followed by the
entries joined by the delimiter. -/
def dJoin (d : Char) (lb : List (List Char)) : List Char :=
  match lb with
  | [] => []
  | _ => d :: joinWith d lb

/-- `windowsChain hi ws`: the first window of `ws` ends exactly at `hi`
and every later window ends exactly where the previous one begins — the
windows are contiguous, pairwise disjoint and backward-adjacent. -/
def windowsChain (hi : Nat) : List (Nat × Nat) → Prop
  | [] => True
  | w :: ws => w.1 + w.2 = hi ∧ windowsChain w.1 ws

/-! ### Lemmas about the line splitter and joiner -/

lemma joinWith_nil (d : Char) : joinWith d [] = [] := rfl

lemma joinWith_single (d : Char) (x : List Char) : joinWith d [x] = x := rfl

lemma joinWith_cons_cons (d : Char) (x y : List Char) (ys : List (List Char)) :
    joinWith d (x :: y :: ys) = x ++ d :: joinWith d (y :: ys) := rfl

lemma joinWith_cons_ne (d : Char) (x : List Char) {l : List (List Char)}
    (h : l ≠ []) : joinWith d (x :: l) = x ++ d :: joinWith d l := by
  cases l with
  | nil => exact absurd rfl h
  | cons y ys => rfl

lemma joinWith_append (d : Char) :
    ∀ xs ys : List (List Char), xs ≠ [] → ys ≠ [] →
      joinWith d (xs ++ ys) = joinWith d xs ++ d :: joinWith d ys := by
  intro xs
  induction xs with
  | nil => intro ys h _; exact absurd rfl h
  | cons x xs ih =>
    intro ys _ hy
    cases xs with
    | nil =>
      cases ys with
      | nil => exact absurd rfl hy
      | cons y ys2 => simp [joinWith_cons_cons, joinWith_single]
    | cons x2 xs2 =>
      have hih := ih ys (by simp) hy
      simp only [List.cons_append] at hih ⊢
      rw [joinWith_cons_cons, joinWith_cons_cons, hih]
      simp [List.append_assoc]

lemma joinWith_splitOnChar (d : Char) : ∀ s, joinWith d (splitOnChar d s) = s := by
  intro s
  induction s with
  | nil => rfl
  | cons c rest ih =>
    have ih2 : joinWith d ((splitAux d rest).1 :: (splitAux d rest).2) = rest := ih
    by_cases h : c = d
    · simp only [splitOnChar, splitAux, if_pos h]
      show [] ++ d :: joinWith d ((splitAux d rest).1 :: (splitAux d rest).2) = c :: rest
      rw [List.nil_append, ih2, h]
    · simp only [splitOnChar, splitAux, if_neg h]
      cases h2 : (splitAux d rest).2 with
      | nil =>
        rw [h2] at ih2
        show c :: (splitAux d rest).1 = c :: rest
        rw [joinWith_single] at ih2
        rw [ih2]
      | cons y ys =>
        rw [h2] at ih2
        rw [joinWith_cons_cons] at ih2 ⊢
        show c :: ((splitAux d rest).1 ++ d :: joinWith d (y :: ys)) = c :: rest
        rw [ih2]

lemma splitAux_no_delim (d : Char) :
    ∀ s, d ∉ (splitAux d s).1 ∧ ∀ p ∈ (splitAux d s).2, d ∉ p := by
  intro s
  induction s with
  | nil => simp [splitAux]
  | cons c rest ih =>
    by_cases h : c = d
    · simp only [splitAux, if_pos h]
      refine ⟨by simp, ?_⟩
      intro p hp
      rcases List.mem_cons.mp hp with h1 | h2
      · exact h1 ▸ ih.1
      · exact ih.2 p h2
    · simp only [splitAux, if_neg h]
      refine ⟨?_, ih.2⟩
      intro hm
      rcases List.mem_cons.mp hm with h1 | h2
      · exact h h1.symm
      · exact ih.1 h2

lemma splitAux_fst_append (d : Char) (s : List Char) :
    ∃ t, (splitAux d s).1 ++ t = s := by
  have hj := joinWith_splitOnChar d s
  rw [splitOnChar] at hj
  cases h2 : (splitAux d s).2 with
  | nil =>
    rw [h2, joinWith_single] at hj
    exact ⟨[], by rw [List.append_nil, hj]⟩
  | cons y ys =>
    rw [h2, joinWith_cons_cons] at hj
    exact ⟨d :: joinWith d (y :: ys), hj⟩

lemma take_of_append_eq {p t s : List Char} (h : p ++ t = s) :
    List.take p.length s = p := by
  rw [← h]
  exact List.take_left p t

/-! ### Lemmas about the buffer update -/

lemma dJoin_nil (d : Char) : dJoin d [] = [] := rfl

lemma dJoin_ne (d : Char) (l : List (List Char)) (h : l ≠ []) :
    dJoin d l = d :: joinWith d l := by
  cases l with
  | nil => exact absurd rfl h
  | cons z zs => rfl

lemma updateBuffers_eq (pb : List Char) (lb : List (List Char)) (data : List Char) :
    updateBuffers pb lb data =
      if (splitAux LINE_DELIMITER (data ++ pb)).2 = [] then (data ++ pb, lb)
      else ((splitAux LINE_DELIMITER (data ++ pb)).1,
            (splitAux LINE_DELIMITER (data ++ pb)).2 ++ lb) := by
  unfold updateBuffers splitOnChar
  cases h2 : (splitAux LINE_DELIMITER (data ++ pb)).2 with
  | nil => simp [h2]
  | cons y ys =>
    simp only [h2, List.length_cons, List.headD, List.tail_cons]
    rw [if_pos (by omega), if_neg (by simp)]
    obtain ⟨t, ht⟩ := splitAux_fst_append LINE_DELIMITER (data ++ pb)
    rw [take_of_append_eq ht]

lemma updateBuffers_fst_no_delim (pb : List Char) (lb : List (List Char))
    (data : List Char) : LINE_DELIMITER ∉ (updateBuffers pb lb data).1 := by
  rw [updateBuffers_eq]
  split
  · rename_i h
    have hj := joinWith_splitOnChar LINE_DELIMITER (data ++ pb)
    rw [splitOnChar, h, joinWith_single] at hj
    show LINE_DELIMITER ∉ data ++ pb
    rw [← hj]
    exact (splitAux_no_delim LINE_DELIMITER (data ++ pb)).1
  · exact (splitAux_no_delim LINE_DELIMITER (data ++ pb)).1

lemma updateBuffers_snd_no_delim (pb : List Char) (lb : List (List Char))
    (data : List Char) (h : ∀ l ∈ lb, LINE_DELIMITER ∉ l) :
    ∀ l ∈ (updateBuffers pb lb data).2, LINE_DELIMITER ∉ l := by
  rw [updateBuffers_eq]
  split
  · simpa using h
  · intro l hl
    rcases List.mem_append.mp hl with h1 | h2
    · exact (splitAux_no_delim LINE_DELIMITER (data ++ pb)).2 l h1
    · exact h l h2

lemma updateBuffers_content (pb : List Char) (lb : List (List Char))
    (data : List Char) :
    (updateBuffers pb lb data).1 ++ dJoin LINE_DELIMITER (updateBuffers pb lb data).2
      = (data ++ pb) ++ dJoin LINE_DELIMITER lb := by
  rw [updateBuffers_eq]
  have hj := joinWith_splitOnChar LINE_DELIMITER (data ++ pb)
  rw [splitOnChar] at hj
  split
  · rfl
  · rename_i h
    rw [joinWith_cons_ne LINE_DELIMITER _ h] at hj
    cases hlb : lb with
    | nil =>
      rw [dJoin_nil, List.append_nil, List.append_nil, dJoin_ne _ _ h, hj]
    | cons z zs =>
      rw [dJoin_ne LINE_DELIMITER ((splitAux LINE_DELIMITER (data ++ pb)).2 ++ z :: zs) (by simp),
          dJoin_ne LINE_DELIMITER (z :: zs) (by simp),
          joinWith_append LINE_DELIMITER _ _ h (by simp)]
      conv_rhs => rw [← hj]
      simp [List.append_assoc]

/-! ### Lemmas about the stop conditions and one loop iteration -/

lemma check_start_eq_zero (pbuf : List Char) (lb : List (List Char)) :
    check_start_of_file 0 pbuf lb = some (pbuf ++ dJoin LINE_DELIMITER lb) := by
  cases lb <;> simp [check_start_of_file, dJoin]

lemma check_start_eq_none_iff (o : Nat) (pbuf : List Char)
    (lb : List (List Char)) : check_start_of_file o pbuf lb = none ↔ o ≠ 0 := by
  by_cases h : o = 0 <;> simp [check_start_of_file, h]

lemma tailIter_inr {W : Nat} {file : List Char} {n : Nat} {s s2 : TailState}
    (h : tailIter W file n s = Sum.inr s2) :
    s.offset ≠ 0 ∧
      s2 = ⟨s.offset - W, s.offset - (s.offset - W),
            (updateBuffers s.pb s.lb (List.take s.length (List.drop s.offset file))).1,
            (updateBuffers s.pb s.lb (List.take s.length (List.drop s.offset file))).2⟩ := by
  unfold tailIter at h
  split at h
  · exact absurd h (by simp)
  · split at h
    · exact absurd h (by simp)
    · rename_i hstart
      refine ⟨(check_start_eq_none_iff _ _ _).mp hstart, ?_⟩
      exact (Sum.inr.injEq _ _).mp h |>.symm

lemma tailIter_inl {W : Nat} {file : List Char} {n : Nat} {s : TailState}
    (h : s.offset = 0) :
    ∃ out, tailIter W file n s = Sum.inl out := by
  unfold tailIter
  split
  · exact ⟨_, rfl⟩
  · rename_i hen
    split
    · exact ⟨_, rfl⟩
    · rename_i hstart
      rw [check_start_eq_none_iff] at hstart
      exact absurd h hstart

/-! ### Lemmas about the backward-tail loop -/

lemma windowsChain_le {hi : Nat} :
    ∀ {ws : List (Nat × Nat)}, windowsChain hi ws → ∀ w ∈ ws, w.1 + w.2 ≤ hi := by
  intro ws
  induction ws generalizing hi with
  | nil => intro _ w hw; exact absurd hw (by simp)
  | cons x xs ih =>
    intro hch w hw
    obtain ⟨h1, h2'⟩ := hch
    rcases List.mem_cons.mp hw with h1x | h2x
    · exact h1x ▸ Nat.le_of_eq h1
    · exact Nat.le_trans (ih h2' w h2x) (by omega)

lemma getLast?_mem {α : Type} : ∀ {l : List α} {a : α}, l.getLast? = some a → a ∈ l := by
  intro l
  induction l with
  | nil => intro a h; simp at h
  | cons x xs ih =>
    intro a h
    cases xs with
    | nil => simp_all
    | cons y ys =>
      rw [List.getLast?_cons_cons] at h
      exact List.mem_cons_of_mem x (ih h)

lemma getLast?_cons_of_ne {α : Type} (x : α) {l : List α} (h : l ≠ []) :
    (x :: l).getLast? = l.getLast? := by
  cases l with
  | nil => exact absurd rfl h
  | cons y ys => exact List.getLast?_cons_cons

/-- The windows recorded by a successful run of the loop start exactly at
the state's window and form a backward-adjacent chain ending at
`s.offset + s.length`. -/
lemma tailLoop_windows {W : Nat} {file : List Char} {n : Nat} :
    ∀ {fuel : Nat} {s : TailState} {ws : List (Nat × Nat)} {out : List Char},
      tailLoop W file n fuel s = some (ws, out) →
      ws.head? = some (s.offset, s.length) ∧ windowsChain (s.offset + s.length) ws := by
  intro fuel
  induction fuel with
  | zero => intro s ws out h; exact absurd h (by simp [tailLoop])
  | succ fuel ih =>
    intro s ws out h
    rw [tailLoop] at h
    cases hIter : tailIter W file n s with
    | inl o =>
      rw [hIter] at h
      have h2 : some ([(s.offset, s.length)], o) = some (ws, out) := h
      obtain ⟨hws, hout⟩ : [(s.offset, s.length)] = ws ∧ o = out := by
        simpa using h2
      subst hws
      exact ⟨rfl, rfl, trivial⟩
    | inr s2 =>
      rw [hIter] at h
      have h2 : Option.map (fun r => ((s.offset, s.length) :: r.1, r.2))
          (tailLoop W file n fuel s2) = some (ws, out) := h
      rcases hrec : tailLoop W file n fuel s2 with _ | r
      · rw [hrec] at h2; exact absurd h2 (by simp)
      · rw [hrec] at h2
        simp only [Option.map_some', Option.some.injEq, Prod.mk.injEq] at h2
        obtain ⟨hws, hout⟩ := h2
        obtain ⟨hh, hch⟩ :=
          ih (show tailLoop W file n fuel s2 = some (r.1, r.2) by rw [hrec])
        obtain ⟨hne, hs2⟩ := tailIter_inr hIter
        subst hws
        refine ⟨rfl, rfl, ?_⟩
        have hsum : s2.offset + s2.length = s.offset := by
          rw [hs2]; simp only []; omega
        rw [← hsum]
        exact hch

/-- With positive window size, fuel exceeding the current offset is always
sufficient: the loop stops before running out. -/
lemma tailLoop_isSome {W : Nat} {file : List Char} {n : Nat} (hW : 0 < W) :
    ∀ {fuel : Nat} {s : TailState}, s.offset < fuel →
      (tailLoop W file n fuel s).isSome := by
  intro fuel
  induction fuel with
  | zero => intro s h; omega
  | succ fuel ih =>
    intro s hlt
    rw [tailLoop]
    cases hIter : tailIter W file n s with
    | inl o => simp
    | inr s2 =>
      obtain ⟨hne, hs2⟩ := tailIter_inr hIter
      have h2 : s2.offset < fuel := by
        rw [hs2]
        simp only []
        omega
      have := ih h2
      rcases hrec : tailLoop W file n fuel s2 with _ | r
      · rw [hrec] at this; simp at this
      · simp [hrec]

/-- Ceiling-division bookkeeping for one backward step of the window
offset. -/
lemma ceil_shift {W o : Nat} (hW : 0 < W) (ho : 1 ≤ o) :
    (o - W + W - 1) / W + 1 = (o + W - 1) / W := by
  rcases le_or_lt W o with hc | hc
  · have e1 : o - W + W - 1 = o - 1 := by omega
    have e2 : o + W - 1 = (o - 1) + W := by omega
    rw [e1, e2, Nat.add_div_right _ hW]
  · have e1 : o - W = 0 := by omega
    have e2 : o + W - 1 = (o - 1) + W := by omega
    rw [e1, e2, Nat.add_div_right _ hW, Nat.zero_add,
        Nat.div_eq_of_lt (by omega), Nat.div_eq_of_lt (by omega)]

/-- Window-count bookkeeping: a successful run from offset `o₀` whose last
window sits at offset `o` performs
`ceil(o₀/W) + 1 - ceil(o/W)` reads (written additively). -/
lemma tailLoop_count {W : Nat} {file : List Char} {n : Nat} (hW : 0 < W) :
    ∀ {fuel : Nat} {s : TailState} {ws : List (Nat × Nat)} {out : List Char}
      {o l : Nat},
      tailLoop W file n fuel s = some (ws, out) →
      ws.getLast? = some (o, l) →
      ws.length + (o + W - 1) / W = (s.offset + W - 1) / W + 1 := by
  intro fuel
  induction fuel with
  | zero => intro s ws out o l h; exact absurd h (by simp [tailLoop])
  | succ fuel ih =>
    intro s ws out o l h hlast
    rw [tailLoop] at h
    cases hIter : tailIter W file n s with
    | inl o2 =>
      rw [hIter] at h
      have h2 : some ([(s.offset, s.length)], o2) = some (ws, out) := h
      obtain ⟨hws, hout⟩ : [(s.offset, s.length)] = ws ∧ o2 = out := by
        simpa using h2
      subst hws
      simp only [List.getLast?_singleton, Option.some.injEq, Prod.mk.injEq] at hlast
      obtain ⟨ho, hl⟩ := hlast
      rw [← ho, List.length_singleton]
      omega
    | inr s2 =>
      rw [hIter] at h
      have h2 : Option.map (fun r => ((s.offset, s.length) :: r.1, r.2))
          (tailLoop W file n fuel s2) = some (ws, out) := h
      rcases hrec : tailLoop W file n fuel s2 with _ | r
      · rw [hrec] at h2; exact absurd h2 (by simp)
      · rw [hrec] at h2
        simp only [Option.map_some', Option.some.injEq, Prod.mk.injEq] at h2
        obtain ⟨hws, hout⟩ := h2
        obtain ⟨hh, _⟩ := tailLoop_windows
          (show tailLoop W file n fuel s2 = some (r.1, r.2) by rw [hrec])
        have hne2 : r.1 ≠ [] := by
          intro hx; rw [hx] at hh; simp at hh
        subst hws
        rw [getLast?_cons_of_ne _ hne2] at hlast
        have hcount :=
          ih (show tailLoop W file n fuel s2 = some (r.1, r.2) by rw [hrec]) hlast
        obtain ⟨hne, hs2⟩ := tailIter_inr hIter
        have ho2 : s2.offset = s.offset - W := by rw [hs2]
        rw [List.length_cons]
        rw [ho2] at hcount
        have hoff : 1 ≤ s.offset := Nat.one_le_iff_ne_zero.mpr hne
        have harith := ceil_shift hW hoff
        omega

/-- Concatenating, in file order, the data of a backward-adjacent window
chain reproduces the contiguous byte range from the last window's offset
up to the chain's top boundary. -/
lemma windowsChain_concat (file : List Char) :
    ∀ {ws : List (Nat × Nat)} {hi o l : Nat}, windowsChain hi ws →
      ws.getLast? = some (o, l) →
      List.flatten (List.reverse
          (List.map (fun w => List.take w.2 (List.drop w.1 file)) ws))
        = List.take (hi - o) (List.drop o file) := by
  intro ws
  induction ws with
  | nil => intro hi o l _ hlast; simp at hlast
  | cons w ws ih =>
    intro hi o l hch hlast
    obtain ⟨h1, h2⟩ := hch
    cases ws with
    | nil =>
      simp only [List.getLast?_singleton, Option.some.injEq] at hlast
      subst hlast
      have h1b : o + l = hi := h1
      simp only [List.map_cons, List.map_nil, List.reverse_cons,
        List.reverse_nil, List.nil_append, List.flatten_cons,
        List.flatten_nil, List.append_nil]
      have e : hi - o = l := by omega
      rw [e]
    | cons v vs =>
      rw [List.getLast?_cons_cons] at hlast
      have hmem := getLast?_mem hlast
      have hle : o + l ≤ w.1 := windowsChain_le h2 (o, l) hmem
      have hih := ih h2 hlast
      simp only [List.map_cons, List.reverse_cons, List.flatten_append,
        List.flatten_cons, List.flatten_nil, List.append_nil] at hih ⊢
      rw [hih]
      have e : hi - o = (w.1 - o) + w.2 := by omega
      rw [e, List.take_add, List.drop_drop]
      have e2 : o + (w.1 - o) = w.1 := by omega
      rw [e2]

/-! ### The reachable-state invariant of the backward walk -/

/-- `runSteps W file n k s`: the state after `k` non-stopping iterations of
the `tail_backwards` loop from `s`, or `none` if the loop stopped within
the first `k` iterations. -/
def runSteps (W : Nat) (file : List Char) (n : Nat) :
    Nat → TailState → Option TailState
  | 0, s => some s
  | k + 1, s =>
    match tailIter W file n s with
    | Sum.inl _ => none
    | Sum.inr s2 => runSteps W file n k s2

/-- The buffer invariant of the backward walk: the pb buffer holds no
delimiter, no buffered line holds a delimiter, and the pb buffer followed
by the (delimiter-joined, delimiter-prefixed) line buffer is exactly the
suffix of the file after the next window. -/
def TailInv (file : List Char) (s : TailState) : Prop :=
  LINE_DELIMITER ∉ s.pb ∧
  (∀ l ∈ s.lb, LINE_DELIMITER ∉ l) ∧
  s.pb ++ dJoin LINE_DELIMITER s.lb = List.drop (s.offset + s.length) file

lemma tailInv_init (W : Nat) (file : List Char) :
    TailInv file (initState W file) := by
  refine ⟨by simp [initState], by simp [initState], ?_⟩
  show ([] : List Char) ++ dJoin LINE_DELIMITER []
      = List.drop (List.length file - W + (List.length file - (List.length file - W))) file
  rw [dJoin_nil, List.nil_append]
  have e : List.length file - W + (List.length file - (List.length file - W))
      = List.length file := by omega
  rw [e, List.drop_length]

lemma tailInv_step {W : Nat} {file : List Char} {n : Nat} {s s2 : TailState}
    (hIter : tailIter W file n s = Sum.inr s2) (hInv : TailInv file s) :
    TailInv file s2 := by
  obtain ⟨hpb, hlb, hcontent⟩ := hInv
  obtain ⟨hne, hs2⟩ := tailIter_inr hIter
  subst hs2
  refine ⟨updateBuffers_fst_no_delim _ _ _, updateBuffers_snd_no_delim _ _ _ hlb, ?_⟩
  show (updateBuffers s.pb s.lb (List.take s.length (List.drop s.offset file))).1 ++
      dJoin LINE_DELIMITER
        (updateBuffers s.pb s.lb (List.take s.length (List.drop s.offset file))).2
      = List.drop (s.offset - W + (s.offset - (s.offset - W))) file
  rw [updateBuffers_content, List.append_assoc, hcontent]
  have e : s.offset - W + (s.offset - (s.offset - W)) = s.offset := by omega
  rw [e]
  have e2 : List.drop (s.offset + s.length) file
      = List.drop s.length (List.drop s.offset file) := by
    rw [List.drop_drop]
  rw [e2, List.take_append_drop]

/-- Every state reachable by the backward walk satisfies the buffer
invariant. -/
lemma runSteps_inv {W : Nat} {file : List Char} {n : Nat} :
    ∀ {k : Nat} {s : TailState},
      runSteps W file n k (initState W file) = some s → TailInv file s := by
  have main : ∀ (k : Nat) (s0 s : TailState), TailInv file s0 →
      runSteps W file n k s0 = some s → TailInv file s := by
    intro k
    induction k with
    | zero =>
      intro s0 s h0 h
      have h2 : some s0 = some s := h
      rw [Option.some.inj h2] at h0
      exact h0
    | succ k ih =>
      intro s0 s h0 h
      rw [runSteps] at h
      cases hIter : tailIter W file n s0 with
      | inl o => rw [hIter] at h; exact absurd h (by simp)
      | inr s2 =>
        rw [hIter] at h
        exact ih s2 s (tailInv_step hIter h0) h
  intro k s h
  exact main k _ s (tailInv_init W file) h

/-- The byte range covered by the line buffer is the trailing segment of
the file of the joined buffer's length. -/
lemma lb_suffix_of_content {file pbuf : List Char} {lb : List (List Char)}
    {b : Nat} (h : pbuf ++ dJoin LINE_DELIMITER lb = List.drop b file) :
    joinWith LINE_DELIMITER lb
      = List.drop (List.length file - List.length (joinWith LINE_DELIMITER lb)) file := by
  by_cases hlb : lb = []
  · subst hlb
    rw [joinWith_nil, List.length_nil, Nat.sub_zero, List.drop_length]
  · rw [dJoin_ne LINE_DELIMITER lb hlb] at h
    have hdrop : List.drop (pbuf.length + 1) (List.drop b file)
        = joinWith LINE_DELIMITER lb := by
      rw [← h]
      have e : pbuf ++ LINE_DELIMITER :: joinWith LINE_DELIMITER lb
          = (pbuf ++ [LINE_DELIMITER]) ++ joinWith LINE_DELIMITER lb := by simp
      rw [e]
      have e2 : pbuf.length + 1 = (pbuf ++ [LINE_DELIMITER]).length := by simp
      rw [e2, List.drop_left]
    have hlen : List.length (List.drop b file)
        = pbuf.length + 1 + List.length (joinWith LINE_DELIMITER lb) := by
      rw [← h]; simp; omega
    have hblen : b + (pbuf.length + 1) + List.length (joinWith LINE_DELIMITER lb)
        = List.length file := by
      have hld := List.length_drop b file
      rw [hlen] at hld
      have hble : b ≤ List.length file := by
        by_contra hc
        push_neg at hc
        have hnil : List.drop b file = [] := List.drop_eq_nil_of_le (by omega)
        rw [hnil] at hlen
        simp only [List.length_nil] at hlen
        omega
      omega
    have e : List.length file - List.length (joinWith LINE_DELIMITER lb)
        = b + (pbuf.length + 1) := by omega
    rw [e, ← hdrop, List.drop_drop]

/-! ### The forward follower (`tail_follow`) -/

/-- One poll of `tail_follow` against the file snapshot `f`: read up to
`CHUNK_SIZE` bytes at `offset`; if data came back, emit it and advance the
offset by the number of bytes actually returned. -/
def followIter (f : List Char) (offset : Nat) : List Char × Nat :=
  let data := List.take CHUNK_SIZE (List.drop offset f)
  if 0 < data.length then (data, offset + data.length) else ([], offset)

/-- A run of the `tail_follow` loop over a finite list of file snapshots
(the content of the growing file at each successive poll; the sleep
between polls is not modelled).  Returns the concatenated emitted text and
the final offset. -/
def tail_follow_run : List (List Char) → Nat → List Char × Nat
  | [], offset => ([], offset)
  | f :: fs, offset =>
    ((followIter f offset).1 ++ (tail_follow_run fs (followIter f offset).2).1,
     (tail_follow_run fs (followIter f offset).2).2)

lemma followIter_eq (f : List Char) (offset : Nat) :
    followIter f offset =
      (List.take CHUNK_SIZE (List.drop offset f),
       offset + (List.take CHUNK_SIZE (List.drop offset f)).length) := by
  rw [followIter]
  split
  · rfl
  · rename_i hlen
    have e : List.take CHUNK_SIZE (List.drop offset f) = [] := by
      have : (List.take CHUNK_SIZE (List.drop offset f)).length = 0 := by omega
      exact List.length_eq_zero.mp this
    rw [e]
    simp

lemma tail_follow_run_cons (f : List Char) (fs : List (List Char)) (offset : Nat) :
    tail_follow_run (f :: fs) offset
      = (List.take CHUNK_SIZE (List.drop offset f) ++
          (tail_follow_run fs
            (offset + (List.take CHUNK_SIZE (List.drop offset f)).length)).1,
         (tail_follow_run fs
            (offset + (List.take CHUNK_SIZE (List.drop offset f)).length)).2) := by
  rw [tail_follow_run, followIter_eq]

lemma tail_follow_run_cons_fst (f : List Char) (fs : List (List Char)) (offset : Nat) :
    (tail_follow_run (f :: fs) offset).1
      = List.take CHUNK_SIZE (List.drop offset f) ++
          (tail_follow_run fs
            (offset + (List.take CHUNK_SIZE (List.drop offset f)).length)).1 := by
  rw [tail_follow_run_cons]

lemma tail_follow_run_cons_snd (f : List Char) (fs : List (List Char)) (offset : Nat) :
    (tail_follow_run (f :: fs) offset).2
      = (tail_follow_run fs
          (offset + (List.take CHUNK_SIZE (List.drop offset f)).length)).2 := by
  rw [tail_follow_run_cons]

lemma take_append_drop_length {α : Type} (m : Nat) (l : List α) :
    List.take m l ++ List.drop (List.take m l).length l = l := by
  rcases le_or_lt m l.length with h | h
  · rw [List.length_take, Nat.min_eq_left h, List.take_append_drop]
  · rw [List.take_of_length_le (by omega), List.drop_length, List.append_nil]

/-- The follower invariant: polling snapshots that are all prefixes of the
final content `C`, starting within `C`, emits exactly the bytes of `C`
between the start offset and the final offset, and the offset advances by
exactly the number of emitted bytes. -/
lemma tail_follow_run_inv {C : List Char} :
    ∀ (fs : List (List Char)) (offset : Nat),
      (∀ f ∈ fs, List.take (List.length f) C = f) →
      offset ≤ C.length →
      offset ≤ (tail_follow_run fs offset).2 ∧
      (tail_follow_run fs offset).2 ≤ C.length ∧
      (tail_follow_run fs offset).2 = offset + (tail_follow_run fs offset).1.length ∧
      (tail_follow_run fs offset).1
        = List.drop offset (List.take (tail_follow_run fs offset).2 C) := by
  intro fs
  induction fs with
  | nil =>
    intro offset _ hoff
    refine ⟨Nat.le_refl _, hoff, by simp [tail_follow_run], ?_⟩
    show ([] : List Char) = List.drop offset (List.take offset C)
    rw [List.drop_take]
    simp
  | cons f fs ih =>
    intro offset hpre hoff
    have hf : List.take (List.length f) C = f := hpre f (by simp)
    rw [tail_follow_run_cons_fst, tail_follow_run_cons_snd]
    set data := List.take CHUNK_SIZE (List.drop offset f) with hdef
    -- the data read from the snapshot is the same range of the final content
    have hdata : data = List.take data.length (List.drop offset C) := by
      rw [hdef]
      conv_lhs => rw [← hf]
      rw [List.drop_take, List.take_take]
      congr 1
      simp [List.length_take, List.length_drop]
    have hdlen : offset + data.length ≤ C.length := by
      have h1 : data.length ≤ List.length f - offset := by
        rw [hdef]
        simp [List.length_take, List.length_drop]
      have h2 : List.length f ≤ C.length := by
        conv_lhs => rw [← hf]
        simp [List.length_take]
      omega
    obtain ⟨r1, r2, r3, r4⟩ := ih (offset + data.length)
      (fun g hg => hpre g (by simp [hg])) hdlen
    refine ⟨by omega, r2, ?_, ?_⟩
    · simp only [List.length_append]
      omega
    · rw [r4]
      have hsplit :
          List.drop offset (List.take (tail_follow_run fs (offset + data.length)).2 C)
            = List.take data.length (List.drop offset C) ++
              List.drop (offset + data.length)
                (List.take (tail_follow_run fs (offset + data.length)).2 C) := by
        rw [List.drop_take, List.drop_take]
        have e : (tail_follow_run fs (offset + data.length)).2 - offset
            = data.length + ((tail_follow_run fs (offset + data.length)).2
                - (offset + data.length)) := by omega
        rw [e, List.take_add, List.drop_drop]
      rw [hsplit, ← hdata]

/-- Enough polls of the final content drain everything after the offset. -/
lemma tail_follow_run_drain {C : List Char} :
    ∀ (k : Nat) (offset : Nat), offset ≤ C.length →
      C.length ≤ offset + k * CHUNK_SIZE →
      tail_follow_run (List.replicate k C) offset = (List.drop offset C, C.length) := by
  intro k
  induction k with
  | zero =>
    intro offset h1 h2
    have e : offset = C.length := by simpa using Nat.le_antisymm h1 h2
    rw [List.replicate, tail_follow_run, e, List.drop_length]
  | succ k ih =>
    intro offset h1 h2
    have hdlen : (List.take CHUNK_SIZE (List.drop offset C)).length
        = min CHUNK_SIZE (C.length - offset) := by
      simp [List.length_take, List.length_drop]
    have hrec := ih (offset + (List.take CHUNK_SIZE (List.drop offset C)).length)
      (by omega) (by rw [Nat.succ_mul] at h2; omega)
    have hrec1 : (tail_follow_run (List.replicate k C)
        (offset + (List.take CHUNK_SIZE (List.drop offset C)).length)).1
        = List.drop (offset + (List.take CHUNK_SIZE (List.drop offset C)).length) C := by
      rw [hrec]
    have hrec2 : (tail_follow_run (List.replicate k C)
        (offset + (List.take CHUNK_SIZE (List.drop offset C)).length)).2
        = C.length := by
      rw [hrec]
    rw [show List.replicate (k + 1) C = C :: List.replicate k C from rfl,
        tail_follow_run_cons, hrec1, hrec2]
    have efst : List.take CHUNK_SIZE (List.drop offset C) ++
        List.drop (offset + (List.take CHUNK_SIZE (List.drop offset C)).length) C
        = List.drop offset C := by
      have e : List.drop (offset + (List.take CHUNK_SIZE (List.drop offset C)).length) C
          = List.drop ((List.take CHUNK_SIZE (List.drop offset C)).length)
              (List.drop offset C) := by
        rw [List.drop_drop]
      rw [e]
      exact take_append_drop_length CHUNK_SIZE (List.drop offset C)
    rw [efst]

/-! ### The error mapping of remote reads (`read_file`) -/

/-- The errors raised by `read_file`.  A `notFound` carries the message of
the exception raised on HTTP 404; a `transport` carries the status code
and response body written to the error log at the raise site, together
with the raised exception's message. -/
inductive ReadError where
  | notFound (message : String)
  | transport (status : Nat) (body : String) (message : String)
deriving DecidableEq

/-- The part of the Mesos agent's HTTP response that `read_file` inspects:
the status code, the response body text, and the `data` field of the
parsed JSON payload (the bytes read). -/
structure MesosResponse where
  status_code : Nat
  text : String
  data : List Char
deriving DecidableEq

/-- The message of the exception raised on HTTP 404 (the source wraps the
path in single quotes; the quotes are elided here). -/
def notFoundMessage (path : String) : String :=
  "Cannot open " ++ path ++ " for reading (file was not found)."

/-- The message of the exception raised on any other non-200 status. -/
def transportMessage : String :=
  "Encountered error when reading file from Mesos agent."

/-- `read_file` from the source, as a function of the HTTP response it
receives: 404 raises the not-found error naming the path; any other
non-200 status logs the status code and body and raises; otherwise the
parsed payload is returned. -/
def read_file (path : String) (resp : MesosResponse) :
    Except ReadError (List Char) :=
  if resp.status_code = 404 then
    Except.error (ReadError.notFound (notFoundMessage path))
  else if resp.status_code ≠ 200 then
    Except.error (ReadError.transport resp.status_code resp.text transportMessage)
  else
    Except.ok resp.data

/-- The `tail_backwards` loop against a fallible read function (the shape
actually used by the source, where each read may raise): the first failed
read aborts the whole walk with that error and no output. -/
def tailLoopE (read_fn : Nat → Nat → Except ReadError (List Char)) (n : Nat) :
    Nat → TailState → Option (Except ReadError (List (Nat × Nat) × List Char))
  | 0, _ => none
  | fuel + 1, s =>
    match read_fn s.offset s.length with
    | Except.error e => some (Except.error e)
    | Except.ok data =>
      match check_enough_lines_read (updateBuffers s.pb s.lb data).2 n with
      | some out => some (Except.ok ([(s.offset, s.length)], out))
      | none =>
        match check_start_of_file s.offset (updateBuffers s.pb s.lb data).1
            (updateBuffers s.pb s.lb data).2 with
        | some out => some (Except.ok ([(s.offset, s.length)], out))
        | none =>
          match tailLoopE read_fn n fuel
              ⟨s.offset - CHUNK_SIZE, s.offset - (s.offset - CHUNK_SIZE),
               (updateBuffers s.pb s.lb data).1, (updateBuffers s.pb s.lb data).2⟩ with
          | some (Except.ok r) => some (Except.ok ((s.offset, s.length) :: r.1, r.2))
          | other => other

/-- The infallible read function induced by an in-memory file. -/
def readPure (file : List Char) (offset : Nat) (length : Nat) :
    Except ReadError (List Char) :=
  Except.ok (List.take length (List.drop offset file))

/-- Against the infallible in-memory read function, the fallible loop
agrees with the pure loop. -/
lemma tailLoopE_pure (file : List Char) (n : Nat) :
    ∀ (fuel : Nat) (s : TailState),
      tailLoopE (readPure file) n fuel s
        = Option.map Except.ok (tailLoop CHUNK_SIZE file n fuel s) := by
  intro fuel
  induction fuel with
  | zero => intro s; rfl
  | succ fuel ih =>
    intro s
    simp only [tailLoopE, readPure, tailLoop, tailIter]
    cases hen : check_enough_lines_read
        (updateBuffers s.pb s.lb (List.take s.length (List.drop s.offset file))).2 n with
    | some out => simp [hen]
    | none =>
      simp only [hen]
      cases hst : check_start_of_file s.offset
          (updateBuffers s.pb s.lb (List.take s.length (List.drop s.offset file))).1
          (updateBuffers s.pb s.lb (List.take s.length (List.drop s.offset file))).2 with
      | some out => simp [hst]
      | none =>
        simp only [hst]
        rw [ih]
        cases hrec : tailLoop CHUNK_SIZE file n fuel
            ⟨s.offset - CHUNK_SIZE, s.offset - (s.offset - CHUNK_SIZE),
             (updateBuffers s.pb s.lb (List.take s.length (List.drop s.offset file))).1,
             (updateBuffers s.pb s.lb (List.take s.length (List.drop s.offset file))).2⟩ with
        | none => rfl
        | some r => rfl

/-! ### The claims -/

/-- Claim C1: stop condition A emits exactly the requested trailing lines:
for content `"line1\nline2\nline3\nline4\nline5\n"` with requested line
count 2 the output is exactly `"line4\nline5\n"`, and for content
`"a\nb\nc"` with requested line count 2 the output is exactly `"b\nc"`
with no trailing delimiter appended. -/
theorem C1_stop_enough_lines_examples :
    tailOutput (String.toList "line1\nline2\nline3\nline4\nline5\n") 2
      = String.toList "line4\nline5\n" ∧
    tailOutput (String.toList "a\nb\nc") 2 = String.toList "b\nc" :=
  ⟨by decide, by decide⟩

/-- Claim C2: stop condition B (start of file reached): when the offset is
`0` and the enough-lines check fails after the buffer update, the loop
stops at that iteration and emits the pb buffer followed, if the line
buffer is non-empty, by a delimiter and the buffered lines joined by the
delimiter; in particular for content `"x\ny\n"` with requested line count
5 the output is exactly `"x\ny\n"`. -/
theorem C2_stop_start_of_file :
    (∀ (W : Nat) (file : List Char) (n fuel : Nat) (s : TailState)
        (pb2 : List Char) (lb2 : List (List Char)),
        updateBuffers s.pb s.lb (List.take s.length (List.drop s.offset file))
          = (pb2, lb2) →
        check_enough_lines_read lb2 n = none →
        s.offset = 0 →
        tailLoop W file n (fuel + 1) s
          = some ([(0, s.length)], pb2 ++ dJoin LINE_DELIMITER lb2)) ∧
    tailOutput (String.toList "x\ny\n") 5 = String.toList "x\ny\n" := by
  constructor
  · intro W file n fuel s pb2 lb2 hub hen h0
    have h1 : (updateBuffers s.pb s.lb
        (List.take s.length (List.drop s.offset file))).1 = pb2 := by rw [hub]
    have h2 : (updateBuffers s.pb s.lb
        (List.take s.length (List.drop s.offset file))).2 = lb2 := by rw [hub]
    rw [h0] at h1 h2
    have hIter : tailIter W file n s
        = Sum.inl (pb2 ++ dJoin LINE_DELIMITER lb2) := by
      simp only [tailIter, h0, h1, h2, hen, check_start_eq_zero]
    simp only [tailLoop, hIter, h0]
  · decide

/-- Witness for C2 at a concrete short file. -/
theorem C2_stop_start_of_file_witness :
    updateBuffers [] [] (List.take 4 (List.drop 0 (String.toList "x\ny\n")))
      = (String.toList "x", [String.toList "y", []]) ∧
    check_enough_lines_read [String.toList "y", []] 5 = none ∧
    tailLoop CHUNK_SIZE (String.toList "x\ny\n") 5 1 ⟨0, 4, [], []⟩
      = some ([(0, 4)],
          String.toList "x" ++ dJoin LINE_DELIMITER [String.toList "y", []]) :=
  ⟨by decide, by decide,
    C2_stop_start_of_file.1 CHUNK_SIZE (String.toList "x\ny\n") 5 0
      ⟨0, 4, [], []⟩ (String.toList "x") [String.toList "y", []]
      (by decide) (by decide) rfl⟩

/-- Claim C3: round-trip of the backward walk, for every file content,
requested line count and positive window size: the walk terminates, the
windows it reads form a contiguous, pairwise-disjoint, backward-adjacent
chain starting at the end of the file, and concatenating the read data in
file order reproduces exactly the portion of the file it walked (from the
last window's offset to the end of the file). -/
theorem C3_roundtrip :
    ∀ (W : Nat) (file : List Char) (n : Nat), 0 < W →
      (tail_backwardsW W file n).isSome ∧
      tailWindowsW W file n ≠ [] ∧
      windowsChain (List.length file) (tailWindowsW W file n) ∧
      (∀ o l : Nat, (tailWindowsW W file n).getLast? = some (o, l) →
        List.flatten (List.reverse
            (List.map (fun w => List.take w.2 (List.drop w.1 file))
              (tailWindowsW W file n)))
          = List.drop o file) := by
  intro W file n hW
  have hsome : (tail_backwardsW W file n).isSome := by
    apply tailLoop_isSome hW
    show List.length file - W < List.length file + 1
    omega
  obtain ⟨r, hr⟩ := Option.isSome_iff_exists.mp hsome
  have hwin : tailWindowsW W file n = r.1 := by
    simp only [tailWindowsW, hr, Option.map_some', Option.getD_some]
  have hloop : tailLoop W file n (List.length file + 1) (initState W file)
      = some (r.1, r.2) := hr
  obtain ⟨hh, hch⟩ := tailLoop_windows hloop
  have hsum : (initState W file).offset + (initState W file).length
      = List.length file := by
    show List.length file - W + (List.length file - (List.length file - W))
        = List.length file
    omega
  rw [hsum] at hch
  refine ⟨hsome, ?_, ?_, ?_⟩
  · rw [hwin]
    intro hx
    rw [hx] at hh
    simp at hh
  · rw [hwin]
    exact hch
  · intro o l hlast
    rw [hwin] at hlast ⊢
    have hconcat := windowsChain_concat file hch hlast
    rw [hconcat]
    have e : List.length file - o = (List.drop o file).length :=
      (List.length_drop o file).symm
    rw [e, List.take_length]

/-- Witness for C3 with window size 2 on `"abc"`. -/
theorem C3_roundtrip_witness :
    (0 : Nat) < 2 ∧
    (tail_backwardsW 2 (String.toList "abc") 1).isSome ∧
    tailWindowsW 2 (String.toList "abc") 1 ≠ [] ∧
    windowsChain (List.length (String.toList "abc"))
      (tailWindowsW 2 (String.toList "abc") 1) ∧
    List.flatten (List.reverse
        (List.map (fun w => List.take w.2 (List.drop w.1 (String.toList "abc")))
          (tailWindowsW 2 (String.toList "abc") 1)))
      = List.drop 0 (String.toList "abc") := by
  have h := C3_roundtrip 2 (String.toList "abc") 1 (by decide)
  exact ⟨by decide, h.1, h.2.1, h.2.2.1, h.2.2.2 0 1 (by decide)⟩

/-- Claim C4: follow monotonicity.  Per poll, the offset cursor advances
by exactly the number of bytes returned (and never decreases).  Over any
run whose snapshots are prefixes of the final content `A ++ B` (the file
started as `A` and grows to `A ++ B`), the follower started at offset
`|A|` emits exactly a prefix of `B`, in order, once, with the final offset
equal to the start offset plus the number of emitted bytes; and once the
appended bytes `B` are fully available, enough polls emit exactly `B`. -/
theorem C4_follow_monotonicity :
    (∀ (f : List Char) (offset : Nat),
        followIter f offset
          = (List.take CHUNK_SIZE (List.drop offset f),
             offset + (List.take CHUNK_SIZE (List.drop offset f)).length)) ∧
    (∀ (A B : List Char) (fs : List (List Char)),
        (∀ f ∈ fs, List.take (List.length f) (A ++ B) = f) →
        List.length A ≤ (tail_follow_run fs (List.length A)).2 ∧
        (tail_follow_run fs (List.length A)).2
          = List.length A + (tail_follow_run fs (List.length A)).1.length ∧
        (tail_follow_run fs (List.length A)).1
          = List.take ((tail_follow_run fs (List.length A)).1.length) B) ∧
    (∀ (A B : List Char) (k : Nat), List.length B ≤ k * CHUNK_SIZE →
        tail_follow_run (List.replicate k (A ++ B)) (List.length A)
          = (B, List.length A + List.length B)) := by
  refine ⟨followIter_eq, ?_, ?_⟩
  · intro A B fs hpre
    have hoff : List.length A ≤ (A ++ B).length := by
      simp
    obtain ⟨r1, r2, r3, r4⟩ := tail_follow_run_inv fs (List.length A) hpre hoff
    refine ⟨r1, r3, ?_⟩
    have hout : (tail_follow_run fs (List.length A)).1
        = List.take ((tail_follow_run fs (List.length A)).2 - List.length A) B := by
      rw [r4, List.drop_take, List.drop_left]
    have e : (tail_follow_run fs (List.length A)).2 - List.length A
        = (tail_follow_run fs (List.length A)).1.length := by omega
    rw [← e]
    exact hout
  · intro A B k hk
    have h1 : List.length A ≤ (A ++ B).length := by simp
    have h2 : (A ++ B).length ≤ List.length A + k * CHUNK_SIZE := by
      simp only [List.length_append]
      omega
    have h := tail_follow_run_drain k (List.length A) h1 h2
    rw [h, List.drop_left]
    simp

/-- Witness for C4 with `A = "ab"`, `B = "cd"`. -/
theorem C4_follow_monotonicity_witness :
    List.length (String.toList "ab")
      ≤ (tail_follow_run [String.toList "abcd"] (List.length (String.toList "ab"))).2 ∧
    (tail_follow_run [String.toList "abcd"] (List.length (String.toList "ab"))).2
      = List.length (String.toList "ab") +
          (tail_follow_run [String.toList "abcd"]
            (List.length (String.toList "ab"))).1.length ∧
    (tail_follow_run [String.toList "abcd"] (List.length (String.toList "ab"))).1
      = List.take ((tail_follow_run [String.toList "abcd"]
          (List.length (String.toList "ab"))).1.length) (String.toList "cd") ∧
    tail_follow_run (List.replicate 1 (String.toList "ab" ++ String.toList "cd"))
        (List.length (String.toList "ab"))
      = (String.toList "cd",
         List.length (String.toList "ab") + List.length (String.toList "cd")) := by
  have h2 := C4_follow_monotonicity.2.1 (String.toList "ab") (String.toList "cd")
    [String.toList "abcd"] (by decide)
  have h3 := C4_follow_monotonicity.2.2 (String.toList "ab") (String.toList "cd")
    1 (by decide)
  exact ⟨h2.1, h2.2.1, h2.2.2, h3⟩

/-- Claim C5: error mapping of remote reads.  A 404 response fails with
the not-found error whose message names the requested path; any other
non-200 response fails with the transport error carrying the response
status code and body; and a failed read aborts the backward walk
immediately with that error and no output. -/
theorem C5_error_mapping :
    (∀ (path : String) (resp : MesosResponse), resp.status_code = 404 →
        read_file path resp
          = Except.error (ReadError.notFound (notFoundMessage path)) ∧
        ∃ pre post : String, notFoundMessage path = pre ++ path ++ post) ∧
    (∀ (path : String) (resp : MesosResponse),
        resp.status_code ≠ 404 → resp.status_code ≠ 200 →
        read_file path resp
          = Except.error
              (ReadError.transport resp.status_code resp.text transportMessage)) ∧
    (∀ (read_fn : Nat → Nat → Except ReadError (List Char)) (n fuel : Nat)
        (s : TailState) (e : ReadError),
        read_fn s.offset s.length = Except.error e →
        tailLoopE read_fn n (fuel + 1) s = some (Except.error e)) := by
  refine ⟨?_, ?_, ?_⟩
  · intro path resp h
    exact ⟨by rw [read_file, if_pos h],
      "Cannot open ", " for reading (file was not found).", rfl⟩
  · intro path resp h404 h200
    rw [read_file, if_neg h404, if_pos h200]
  · intro read_fn n fuel s e h
    simp only [tailLoopE, h]

/-- Witness for C5 at concrete responses and a failing read function. -/
theorem C5_error_mapping_witness :
    read_file "stdout" ⟨404, "", []⟩
      = Except.error (ReadError.notFound (notFoundMessage "stdout")) ∧
    read_file "stdout" ⟨500, "oops", []⟩
      = Except.error (ReadError.transport 500 "oops" transportMessage) ∧
    tailLoopE (fun _ _ => Except.error (ReadError.notFound "m")) 3 1 ⟨0, 0, [], []⟩
      = some (Except.error (ReadError.notFound "m")) := by
  have h := C5_error_mapping
  exact ⟨(h.1 "stdout" ⟨404, "", []⟩ rfl).1,
    h.2.1 "stdout" ⟨500, "oops", []⟩ (by decide) (by decide),
    h.2.2 (fun _ _ => Except.error (ReadError.notFound "m")) 3 0 ⟨0, 0, [], []⟩
      (ReadError.notFound "m") rfl⟩

/-- Claim C6, counterexample: for a file of size 0 the walk reaches the
start of the file without any stop condition firing earlier, yet it
performs 1 remote read while `ceil(0 / CHUNK_SIZE) = 0`; so the read
count does not equal `ceil(file_size / WINDOW)` for every file size ≥ 0. -/
theorem C6_read_count_counterexample :
    (tailWindows ([] : List Char) 1).length = 1 ∧
    (List.length ([] : List Char) + CHUNK_SIZE - 1) / CHUNK_SIZE = 0 ∧
    (tailWindows ([] : List Char) 1).getLast? = some (0, 0) :=
  ⟨by decide, by decide, by decide⟩

/-- Claim C6, amended: a zero-size file takes exactly one read; for a file
of size ≥ 1, when the walk runs to the start of the file (its last read
window has offset 0 — the worst case, where no stop condition fires before
the start is reached) the number of reads is exactly
`ceil(file_size / CHUNK_SIZE)`, and when it stops early (last read window
at a positive offset) the number of reads is strictly smaller. -/
theorem C6_read_count_amended :
    (∀ n : Nat, (tailWindows ([] : List Char) n).length = 1) ∧
    (∀ (file : List Char) (n o l : Nat), 1 ≤ List.length file →
        (tailWindows file n).getLast? = some (o, l) → o = 0 →
        (tailWindows file n).length
          = (List.length file + CHUNK_SIZE - 1) / CHUNK_SIZE) ∧
    (∀ (file : List Char) (n o l : Nat),
        (tailWindows file n).getLast? = some (o, l) → o ≠ 0 →
        (tailWindows file n).length
          < (List.length file + CHUNK_SIZE - 1) / CHUNK_SIZE) := by
  have hW : 0 < CHUNK_SIZE := by decide
  refine ⟨fun n => rfl, ?_, ?_⟩
  · intro file n o l hlen hlast h0
    have hsome : (tail_backwardsW CHUNK_SIZE file n).isSome := by
      apply tailLoop_isSome hW
      show List.length file - CHUNK_SIZE < List.length file + 1
      omega
    obtain ⟨r, hr⟩ := Option.isSome_iff_exists.mp hsome
    have hwin : tailWindows file n = r.1 := by
      simp only [tailWindows, tailWindowsW, hr, Option.map_some', Option.getD_some]
    have hloop : tailLoop CHUNK_SIZE file n (List.length file + 1)
        (initState CHUNK_SIZE file) = some (r.1, r.2) := hr
    rw [hwin] at hlast ⊢
    have hcount := tailLoop_count hW hloop hlast
    have hinit : (initState CHUNK_SIZE file).offset
        = List.length file - CHUNK_SIZE := rfl
    rw [hinit, h0] at hcount
    have hzero : (0 + CHUNK_SIZE - 1) / CHUNK_SIZE = 0 :=
      Nat.div_eq_of_lt (by omega)
    have hshift := ceil_shift hW hlen
    omega
  · intro file n o l hlast hne
    have hsome : (tail_backwardsW CHUNK_SIZE file n).isSome := by
      apply tailLoop_isSome hW
      show List.length file - CHUNK_SIZE < List.length file + 1
      omega
    obtain ⟨r, hr⟩ := Option.isSome_iff_exists.mp hsome
    have hwin : tailWindows file n = r.1 := by
      simp only [tailWindows, tailWindowsW, hr, Option.map_some', Option.getD_some]
    have hloop : tailLoop CHUNK_SIZE file n (List.length file + 1)
        (initState CHUNK_SIZE file) = some (r.1, r.2) := hr
    rw [hwin] at hlast ⊢
    have hcount := tailLoop_count hW hloop hlast
    have hinit : (initState CHUNK_SIZE file).offset
        = List.length file - CHUNK_SIZE := rfl
    rw [hinit] at hcount
    -- the last window lies inside the file, so the file is non-empty
    obtain ⟨hh, hch⟩ := tailLoop_windows hloop
    have hsum : (initState CHUNK_SIZE file).offset
        + (initState CHUNK_SIZE file).length = List.length file := by
      show List.length file - CHUNK_SIZE +
          (List.length file - (List.length file - CHUNK_SIZE)) = List.length file
      omega
    rw [hsum] at hch
    have hbound : o + l ≤ List.length file :=
      windowsChain_le hch (o, l) (getLast?_mem hlast)
    have hlen : 1 ≤ List.length file := by omega
    have hshift := ceil_shift hW hlen
    have hone : 1 ≤ (o + CHUNK_SIZE - 1) / CHUNK_SIZE := by
      rw [Nat.one_le_div_iff hW]
      omega
    have hcount_pos : 1 ≤ r.1.length := by
      have hne2 : r.1 ≠ [] := by
        intro hx
        rw [hx] at hlast
        simp at hlast
      have := List.length_pos.mpr hne2
      omega
    omega

/-- Witness for the amended C6 on a 5-byte file read in one window. -/
theorem C6_read_count_amended_witness :
    1 ≤ List.length (String.toList "ab\ncd") ∧
    (tailWindows (String.toList "ab\ncd") 1).getLast? = some (0, 5) ∧
    (tailWindows (String.toList "ab\ncd") 1).length
      = (List.length (String.toList "ab\ncd") + CHUNK_SIZE - 1) / CHUNK_SIZE := by
  refine ⟨by decide, by decide, ?_⟩
  exact C6_read_count_amended.2.1 (String.toList "ab\ncd") 1 0 5
    (by decide) (by decide) rfl

/-- Claim C7: for a file of size 0 and any positive requested line count,
the first iteration finds the enough-lines check failing and stop
condition B firing (offset 0), the walk performs the single read window
`(0, 0)`, and the total output is exactly the empty string. -/
theorem C7_empty_file :
    ∀ n : Nat, 0 < n →
      check_enough_lines_read [] n = none ∧
      check_start_of_file 0 [] [] = some [] ∧
      tail_backwards ([] : List Char) n = some ([(0, 0)], []) ∧
      tailOutput ([] : List Char) n = [] := by
  intro n _
  exact ⟨rfl, rfl, rfl, rfl⟩

/-- Witness for C7 at requested line count 10. -/
theorem C7_empty_file_witness :
    0 < 10 ∧ tail_backwards ([] : List Char) 10 = some ([(0, 0)], []) ∧
    tailOutput ([] : List Char) 10 = [] :=
  ⟨by decide, (C7_empty_file 10 (by decide)).2.2.1, (C7_empty_file 10 (by decide)).2.2.2⟩

/-- Claim C8: buffer invariants.  At every reachable point of a backward
walk: the pb buffer contains no delimiter; no line-buffer entry contains
the delimiter; the pb buffer followed by the delimiter-joined line buffer
is exactly the file's suffix after the next read window (so the
line-buffer entries, rejoined with the delimiter, reproduce exactly the
corresponding trailing byte range of the original file); and the same
holds for the buffers produced by the current iteration's update. -/
theorem C8_buffer_invariants :
    ∀ (W : Nat) (file : List Char) (n k : Nat) (s : TailState),
      runSteps W file n k (initState W file) = some s →
      LINE_DELIMITER ∉ s.pb ∧
      (∀ l ∈ s.lb, LINE_DELIMITER ∉ l) ∧
      s.pb ++ dJoin LINE_DELIMITER s.lb = List.drop (s.offset + s.length) file ∧
      joinWith LINE_DELIMITER s.lb
        = List.drop (List.length file - List.length (joinWith LINE_DELIMITER s.lb))
            file ∧
      LINE_DELIMITER ∉
        (updateBuffers s.pb s.lb (List.take s.length (List.drop s.offset file))).1 ∧
      (∀ l ∈ (updateBuffers s.pb s.lb
          (List.take s.length (List.drop s.offset file))).2, LINE_DELIMITER ∉ l) ∧
      (updateBuffers s.pb s.lb (List.take s.length (List.drop s.offset file))).1 ++
          dJoin LINE_DELIMITER
            (updateBuffers s.pb s.lb (List.take s.length (List.drop s.offset file))).2
        = List.drop s.offset file := by
  intro W file n k s h
  obtain ⟨h1, h2, h3⟩ := runSteps_inv h
  refine ⟨h1, h2, h3, lb_suffix_of_content h3, updateBuffers_fst_no_delim _ _ _,
    updateBuffers_snd_no_delim _ _ _ h2, ?_⟩
  rw [updateBuffers_content, List.append_assoc, h3]
  have e : List.drop (s.offset + s.length) file
      = List.drop s.length (List.drop s.offset file) := by
    rw [List.drop_drop]
  rw [e, List.take_append_drop]

/-- Witness for C8 after one non-stopping step with window size 2 on
`"abc"`. -/
theorem C8_buffer_invariants_witness :
    runSteps 2 (String.toList "abc") 5 1 (initState 2 (String.toList "abc"))
      = some ⟨0, 1, String.toList "bc", []⟩ ∧
    LINE_DELIMITER ∉ String.toList "bc" ∧
    String.toList "bc" ++ dJoin LINE_DELIMITER []
      = List.drop (0 + 1) (String.toList "abc") := by
  have h := C8_buffer_invariants 2 (String.toList "abc") 5 1
    ⟨0, 1, String.toList "bc", []⟩ (by decide)
  exact ⟨by decide, h.1, h.2.2.1⟩

/-- Claim C9: termination of the backward walk.  Every continuing
iteration starts at a positive offset and decreases it by exactly
`min W offset` (hence strictly); at offset 0 stop condition B necessarily
fires; with positive window size the loop stops within `offset + 1`
iterations; and the full walk always produces a result. -/
theorem C9_termination :
    (∀ (W : Nat) (file : List Char) (n : Nat) (s s2 : TailState), 0 < W →
        tailIter W file n s = Sum.inr s2 →
        0 < s.offset ∧ s2.offset + min W s.offset = s.offset ∧
          s2.offset < s.offset) ∧
    (∀ (pbuf : List Char) (lb : List (List Char)),
        (check_start_of_file 0 pbuf lb).isSome) ∧
    (∀ (W : Nat) (file : List Char) (n fuel : Nat) (s : TailState), 0 < W →
        s.offset < fuel → (tailLoop W file n fuel s).isSome) ∧
    (∀ (file : List Char) (n : Nat), (tail_backwards file n).isSome) := by
  refine ⟨?_, ?_, ?_, ?_⟩
  · intro W file n s s2 hW hIter
    obtain ⟨hne, hs2⟩ := tailIter_inr hIter
    have e : s2.offset = s.offset - W := by rw [hs2]
    refine ⟨by omega, by omega, by omega⟩
  · intro pbuf lb
    rw [check_start_eq_zero]
    rfl
  · intro W file n fuel s hW hlt
    exact tailLoop_isSome hW hlt
  · intro file n
    apply tailLoop_isSome (by decide : (0 : Nat) < CHUNK_SIZE)
    show List.length file - CHUNK_SIZE < List.length file + 1
    omega

/-- Witness for C9 on a continuing iteration with window size 1 and on a
full walk. -/
theorem C9_termination_witness :
    (0 < 1 ∧ 0 + min 1 1 = 1 ∧ 0 < 1) ∧
    (check_start_of_file 0 [] []).isSome ∧
    (tailLoop 1 (String.toList "ab") 5 2 ⟨1, 1, [], []⟩).isSome ∧
    (tail_backwards (String.toList "hi") 3).isSome := by
  refine ⟨?_, C9_termination.2.1 [] [], ?_, C9_termination.2.2.2 (String.toList "hi") 3⟩
  · exact C9_termination.1 1 (String.toList "ab") 5 ⟨1, 1, [], []⟩
      ⟨0, 1, String.toList "b", []⟩ (by decide) (by decide)
  · exact C9_termination.2.2.1 1 (String.toList "ab") 5 2 ⟨1, 1, [], []⟩
      (by decide) (by decide)

/-- Claim C10: in-bounds read requests.  Every window `(offset, length)`
the backward walk requests satisfies `offset + length ≤ file_size`
(offsets and lengths are natural numbers, hence non-negative). -/
theorem C10_in_bounds_reads :
    ∀ (file : List Char) (n : Nat) (w : Nat × Nat),
      w ∈ tailWindows file n → w.1 + w.2 ≤ List.length file := by
  intro file n w hw
  have hW : (0 : Nat) < CHUNK_SIZE := by decide
  have hsome : (tail_backwardsW CHUNK_SIZE file n).isSome := by
    apply tailLoop_isSome hW
    show List.length file - CHUNK_SIZE < List.length file + 1
    omega
  obtain ⟨r, hr⟩ := Option.isSome_iff_exists.mp hsome
  have hwin : tailWindows file n = r.1 := by
    simp only [tailWindows, tailWindowsW, hr, Option.map_some', Option.getD_some]
  have hloop : tailLoop CHUNK_SIZE file n (List.length file + 1)
      (initState CHUNK_SIZE file) = some (r.1, r.2) := hr
  obtain ⟨hh, hch⟩ := tailLoop_windows hloop
  have hsum : (initState CHUNK_SIZE file).offset
      + (initState CHUNK_SIZE file).length = List.length file := by
    show List.length file - CHUNK_SIZE +
        (List.length file - (List.length file - CHUNK_SIZE)) = List.length file
    omega
  rw [hsum] at hch
  rw [hwin] at hw
  exact windowsChain_le hch w hw

/-- Witness for C10 at the single window of a 2-byte file. -/
theorem C10_in_bounds_reads_witness :
    (0, 2) ∈ tailWindows (String.toList "ab") 1 ∧
    (0, 2).1 + (0, 2).2 ≤ List.length (String.toList "ab") :=
  ⟨by decide, C10_in_bounds_reads (String.toList "ab") 1 (0, 2) (by decide)⟩

end CookTail
